import Mathlib

/-!
Verification of the `hau` active-user reporting engine (`src/lib/reporter.js`
and its `util` module) against its natural-language specification.

The engine's own code (key derivation, 64-bit buffer normalization, OR
aggregation, cardinality, range enumeration, the four facade operations) is
embedded faithfully below.  The external collaborators named by the spec —
the Redis store (`get`/`strlen`/`getbit`) and the calendar capability
(`moment`) — are not part of the repository; they are modelled from the
spec's description of them (§1, §6).
-/

namespace Hau

/-! ### Calendar capability

Modelled from the spec: the calendar collaborator (`moment`) providing
`utcNow`, `startOfWeek`, `startOfMonth`, `daysInMonth`, `formatISODate`,
`parseDate` (§6).  A date is a calendar day `(year, month, day)`, UTC,
no time-of-day (§3).  The Gregorian rules are implemented genuinely so that
week/month windows behave calendar-correctly. -/

structure Date where
  y : Nat
  m : Nat
  d : Nat
deriving DecidableEq, Repr

/-- Gregorian leap-year test. -/
def isLeap (y : Nat) : Bool :=
  y % 4 == 0 && (y % 100 != 0 || y % 400 == 0)

/-- Days in a Gregorian month (`moment#daysInMonth`). -/
def daysInMonth (y m : Nat) : Nat :=
  match m with
  | 1 => 31
  | 2 => if isLeap y then 29 else 28
  | 3 => 31
  | 4 => 30
  | 5 => 31
  | 6 => 30
  | 7 => 31
  | 8 => 31
  | 9 => 30
  | 10 => 31
  | 11 => 30
  | 12 => 31
  | _ => 0

/-- A calendar-valid date (year at least 1). -/
def Valid (x : Date) : Prop :=
  1 ≤ x.y ∧ 1 ≤ x.m ∧ x.m ≤ 12 ∧ 1 ≤ x.d ∧ x.d ≤ daysInMonth x.y x.m

instance (x : Date) : Decidable (Valid x) := by
  unfold Valid; infer_instance

/-- Calendar successor of a day. -/
def nextDay (x : Date) : Date :=
  if x.d < daysInMonth x.y x.m then ⟨x.y, x.m, x.d + 1⟩
  else if x.m < 12 then ⟨x.y, x.m + 1, 1⟩
  else ⟨x.y + 1, 1, 1⟩

/-- Calendar predecessor of a day. -/
def prevDay (x : Date) : Date :=
  if 1 < x.d then ⟨x.y, x.m, x.d - 1⟩
  else if 1 < x.m then ⟨x.y, x.m - 1, daysInMonth x.y (x.m - 1)⟩
  else ⟨x.y - 1, 12, 31⟩

/-- `moment#add(days, n)`. -/
def addDays (x : Date) (n : Nat) : Date :=
  nextDay^[n] x

/-- Subtracting days. -/
def subDays (x : Date) (n : Nat) : Date :=
  prevDay^[n] x

/-- Days before the first of month `m` within year `y`. -/
def daysBeforeMonth (y m : Nat) : Nat :=
  (match m with
   | 1 => 0
   | 2 => 31
   | 3 => 59
   | 4 => 90
   | 5 => 120
   | 6 => 151
   | 7 => 181
   | 8 => 212
   | 9 => 243
   | 10 => 273
   | 11 => 304
   | 12 => 334
   | _ => 0)
  + (if 3 ≤ m ∧ isLeap y then 1 else 0)

/-- Rata-die style day count: `dayNumber ⟨1,1,1⟩ = 1`, and consecutive
calendar days get consecutive numbers.  Day numbers divisible by 7 fall on
the weekday that starts a calendar week (`moment`'s default week start). -/
def dayNumber (x : Date) : Nat :=
  365 * (x.y - 1) + (x.y - 1) / 4 + (x.y - 1) / 400 + daysBeforeMonth x.y x.m + x.d
    - (x.y - 1) / 100

/-- Weekday index: 0 is the week-start day. -/
def dow (x : Date) : Nat :=
  dayNumber x % 7

/-- `moment#startOf(week)`: move back to the first day of the containing
calendar week. -/
def startOfWeek (x : Date) : Date :=
  subDays x (dow x)

/-- `moment#startOf(month)`: the first day of the containing month. -/
def startOfMonth (x : Date) : Date :=
  ⟨x.y, x.m, 1⟩

/-- The decimal digit character for `n % 10`. -/
def digit (n : Nat) : Char :=
  Nat.digitChar (n % 10)

/-- `moment#format(YYYY-MM-DD)` for years up to 9999: zero-padded
4-2-2 decimal fields separated by dashes.  Modelled from the spec:
`formatISODate(date) -> YYYY-MM-DD` (§6). -/
def isoDate (x : Date) : String :=
  ⟨[digit (x.y / 1000), digit (x.y / 100), digit (x.y / 10), digit x.y, '-',
    digit (x.m / 10), digit x.m, '-', digit (x.d / 10), digit x.d]⟩

/-! ### Key Deriver (`lib/util.js`) -/

/-- The action argument: `none` models a JavaScript `null`/`undefined`
action.  `action || 'active'` also replaces an empty string by the
default sentinel, because `""` is falsy. -/
def actionOrDefault (action : Option String) : String :=
  match action with
  | none => "active"
  | some s => if s = "" then "active" else s

/-- `util.keyFor(action, date)`: `[action, date.format(YYYY-MM-DD)].join('-')`
with the action defaulted by `action || 'active'`. -/
def keyFor (action : Option String) (date : Date) : String :=
  actionOrDefault action ++ "-" ++ isoDate date

/-- One iteration structure of underscore's `_.times(count, fn)` where `fn`
mutates the captured `date` object: the running state is the moment object,
each call returns (and leaves behind) the computed day. -/
def timesMut (f : Date → Nat → Date) : Nat → Nat → Date → List Date
  | 0, _, _ => []
  | k + 1, n, st =>
      let st2 := f st n
      st2 :: timesMut f k (n + 1) st2

/-- `util.weekKeys(date, action)`: seven keys built by
`_.times(7, n => keyFor(action, date.startOf('week').add('days', n)))`,
where both `startOf` and `add` mutate the shared `date` object. -/
def weekKeys (date : Date) (action : Option String) : List String :=
  (timesMut (fun st n => addDays (startOfWeek st) n) 7 0 date).map (keyFor action)

/-- `util.monthKeys(date, action)`: `date.daysInMonth()` keys built by
`_.times(date.daysInMonth(), n => keyFor(action, date.startOf('month').add('days', n)))`,
again with a mutating shared `date`. -/
def monthKeys (date : Date) (action : Option String) : List String :=
  (timesMut (fun st n => addDays (startOfMonth st) n) (daysInMonth date.y date.m) 0 date).map
    (keyFor action)

/-! ### Bit Buffer Normalizer (`util.to64Bits`) and the signed 64-bit read -/

/-- A byte buffer: a list of byte values (each `< 256`). -/
abbrev Buf := List Nat

/-- A well-formed byte buffer. -/
def Bytes (b : Buf) : Prop :=
  ∀ x ∈ b, x < 256

instance (b : Buf) : Decidable (Bytes b) := by
  unfold Bytes; infer_instance

/-- `util.to64Bits(buffer)`: buffers shorter than 8 bytes are left-padded
with zero bytes to exactly 8; longer buffers are returned unchanged. -/
def to64Bits (b : Buf) : Buf :=
  if b.length < 8 then List.replicate (8 - b.length) 0 ++ b else b

/-- The big-endian unsigned integer value of a byte buffer (the spec's
"single big-endian unsigned integer"). -/
def beUnsigned (b : Buf) : Nat :=
  b.foldl (fun a x => 256 * a + x) 0

/-- Node's `Buffer#readBigInt64BE()`: the first 8 bytes as a big-endian
*signed* (two's-complement) 64-bit integer. -/
def readBigInt64BE (b : Buf) : Int :=
  let u := beUnsigned (b.take 8)
  if u < 2 ^ 63 then (u : Int) else (u : Int) - 2 ^ 64

/-! ### Cardinality Counter (`reporter.cardinality`) -/

/-- Most-significant-first binary digit characters of a positive natural
number; the first argument is recursion fuel (any bound on the number). -/
def natBinAux : Nat → Nat → List Char
  | 0, _ => []
  | fuel + 1, n =>
    if n = 0 then [] else natBinAux fuel (n / 2) ++ [if n % 2 = 1 then '1' else '0']

/-- The character list of `BigInt#toString(2)`: for a negative argument a
leading minus sign followed by the binary digits of the absolute value, and
`"0"` for zero. -/
def natBinChars (n : Nat) : List Char :=
  if n = 0 then ['0'] else natBinAux n n

/-- `BigInt#toString(2)` as a character list. -/
def binChars (x : Int) : List Char :=
  if x < 0 then '-' :: natBinChars x.natAbs else natBinChars x.natAbs

/-- `reporter.cardinality(binaryBigint)`: walk the characters of
`binaryBigint.toString(2)` and count the occurrences of `'1'`. -/
def cardinality (x : Int) : Nat :=
  (binChars x).count '1'

/-! ### The store collaborator

Modelled from the spec: the external Redis client offering
`get(key) -> byte buffer or absent`, `strlen(key) -> byte length`,
`getbit(key, i) -> 0|1` (§6), each of which can fail (§7 StoreError).
Errors delivered through the node callback and exceptions thrown inside the
`async` body (which reject the promise the caller holds) are both "the
result channel"; the embedding returns `Except Err` for either. -/

inductive Err where
  | store (msg : String)
  | typeError
deriving DecidableEq, Repr

instance {ε α : Type} [DecidableEq ε] [DecidableEq α] : DecidableEq (Except ε α) := fun a b =>
  match a, b with
  | .error e, .error f =>
    if h : e = f then .isTrue (by rw [h]) else .isFalse (by intro c; cases c; exact h rfl)
  | .ok x, .ok y =>
    if h : x = y then .isTrue (by rw [h]) else .isFalse (by intro c; cases c; exact h rfl)
  | .error _, .ok _ => .isFalse (by intro c; cases c)
  | .ok _, .error _ => .isFalse (by intro c; cases c)

structure RClient where
  get : String → Except Err (Option Buf)
  strlen : String → Except Err Nat
  getbit : String → Nat → Except Err Nat

/-- Bit `i` of a byte buffer, 0-indexed from the most significant bit of the
first byte — Redis `GETBIT` semantics; bits beyond the end read 0. -/
def bitAt (b : Buf) (i : Nat) : Nat :=
  ((b.getD (i / 8) 0) >>> (7 - i % 8)) % 2

/-- A store with no fetch failures, holding `state k` under key `k`
(`none` = absent key).  `strlen` of an absent key is 0 and `getbit` of an
absent key is 0, per Redis. -/
def ofState (state : String → Option Buf) : RClient :=
  { get := fun k => .ok (state k)
    strlen := fun k => .ok ((state k).getD []).length
    getbit := fun k i => .ok (bitAt ((state k).getD []) i) }

/-- Sequential fan-out over keys (`async.map` / `keys.map` + `Promise.all`):
apply the fetch to each element, abort at the first failure. -/
def mapE (f : α → Except Err β) : List α → Except Err (List β)
  | [] => .ok []
  | a :: as =>
    match f a with
    | .error e => .error e
    | .ok b =>
      match mapE f as with
      | .error e => .error e
      | .ok bs => .ok (b :: bs)

/-- A fold that aborts at the first failing step (the `for` loop of
`getUsers` with its `await`ed `getbit` calls). -/
def foldE (f : β → α → Except Err β) (init : β) : List α → Except Err β
  | [] => .ok init
  | a :: as =>
    match f init a with
    | .error e => .error e
    | .ok b => foldE f b as

/-! ### Aggregator and count facade (`reporter.activeUsers`, `daily`,
`weekly`, `monthly`) -/

/-- The per-buffer integer of `activeUsers`'s reduce step: a present buffer
is normalized and read with `readBigInt64BE` (a zero-length buffer is still
truthy in Node), an absent one contributes `BigInt(0)`. -/
def dailyBigint (buffer : Option Buf) : Int :=
  match buffer with
  | some b => readBigInt64BE (to64Bits b)
  | none => 0

/-- The `_.reduce` of `reporter.activeUsers`: bitwise-OR the per-day
integers of the fetched buffers, starting from `BigInt(0)`. -/
def aggregate (state : String → Option Buf) (keys : List String) : Int :=
  (keys.map state).foldl (fun memo buffer => Int.lor (dailyBigint buffer) memo) 0

/-- `keyOrKeys`: `activeUsers` accepts a single key string or an array. -/
def wrapKeys (keyOrKeys : String ⊕ List String) : List String :=
  match keyOrKeys with
  | .inl s => [s]
  | .inr l => l

/-- `reporter.activeUsers(client, keyOrKeys, callback)`: fetch every key
with `client.get` (`async.map`, aborting on the first error), OR the
normalized integers together and report the cardinality. -/
def activeUsers (client : RClient) (keyOrKeys : String ⊕ List String) :
    Except Err Nat :=
  match mapE client.get (wrapKeys keyOrKeys) with
  | .error e => .error e
  | .ok results =>
    .ok (cardinality (results.foldl (fun memo buffer => Int.lor (dailyBigint buffer) memo) 0))

/-- `reporter.daily(client, action, date, callback)` (the date argument is
already resolved: the "defaults to now" arity games use the external
clock). -/
def daily (client : RClient) (action : Option String) (date : Date) :
    Except Err Nat :=
  activeUsers client (.inl (keyFor action date))

/-- `reporter.weekly(client, action, date, callback)`. -/
def weekly (client : RClient) (action : Option String) (date : Date) :
    Except Err Nat :=
  activeUsers client (.inr (weekKeys date action))

/-- `reporter.monthly(client, action, date, callback)`. -/
def monthly (client : RClient) (action : Option String) (date : Date) :
    Except Err Nat :=
  activeUsers client (.inr (monthKeys date action))

/-! ### Range Enumerator (`reporter.getUsers`) -/

structure IdEntry where
  id : Nat
  date : String
deriving DecidableEq, Repr

structure UsersList where
  fromDate : String
  toDate : String
  ids : List IdEntry
deriving DecidableEq, Repr

/-- JavaScript `String#split('-')` over the character list: cut at every
dash (adjacent dashes produce empty fields, and the empty string splits to
one empty field). -/
def splitDash : List Char → List (List Char)
  | [] => [[]]
  | c :: rest =>
    match splitDash rest with
    | [] => [[]]
    | g :: gs => if c = '-' then [] :: g :: gs else (c :: g) :: gs

/-- `` `${dateParts[1]}-${dateParts[2]}-${dateParts[3]}` `` applied to
`key.split('-')`: the day string rebuilt from a storage key (an
out-of-range JavaScript index yields `undefined`). -/
def derivedDate (key : String) : String :=
  let dateParts := (splitDash key.data).map String.mk
  dateParts.getD 1 "undefined" ++ "-" ++ dateParts.getD 2 "undefined" ++ "-"
    ++ dateParts.getD 3 "undefined"

/-- Parse a run of decimal digit characters. -/
def parseNatAux : List Char → Nat → Option Nat
  | [], acc => some acc
  | c :: cs, acc =>
    if c.isDigit then parseNatAux cs (10 * acc + (c.toNat - 48)) else none

/-- Parse a nonempty all-digit string as a natural number. -/
def parseNat? (l : List Char) : Option Nat :=
  match l with
  | [] => none
  | _ => parseNatAux l 0

/-- `moment(s).format('YYYY-MM-DD')`: parse a `y-m-d` string back to a date
and re-emit it zero-padded.  Modelled from the spec: `parseDate` plus
`formatISODate` (§6); an unparseable string formats as `Invalid date`. -/
def momentYMD (s : String) : String :=
  match splitDash s.data with
  | [ys, ms, ds] =>
    match parseNat? ys, parseNat? ms, parseNat? ds with
    | some y, some m, some d => isoDate ⟨y, m, d⟩
    | _, _, _ => "Invalid date"
  | _ => "Invalid date"

/-- The body of `getUsers`'s bit loop: `user = await getbitAsync(item, i)`,
then push `{id: i, date: …}` when the bit is set. -/
def scanStep (client : RClient) (item : String) (acc : List IdEntry) (i : Nat) :
    Except Err (List IdEntry) :=
  match client.getbit item i with
  | .error e => .error e
  | .ok user =>
    .ok (if user = 1 then acc ++ [⟨i, momentYMD (derivedDate item)⟩] else acc)

/-- The per-key body of `getUsers`'s `keys.map(async (item) => ...)`:
`strlen`, then a `getbit` per bit position, appending an `{id, date}` entry
for every set bit. -/
def scanKey (client : RClient) (item : String) : Except Err (List IdEntry) :=
  match client.strlen item with
  | .error e => .error e
  | .ok len =>
    let bitmapLen := len * 8
    if bitmapLen ≠ 0 then foldE (scanStep client item) [] (List.range bitmapLen)
    else .ok []

/-- The key list `getUsers` derives from its granularity argument; any
granularity other than `D`/`W`/`M` leaves `keys` undefined. -/
def keysFor (type : String) (action : Option String) (date : Date) :
    Option (List String) :=
  if type = "D" then some [keyFor action date]
  else if type = "W" then some (weekKeys date action)
  else if type = "M" then some (monthKeys date action)
  else none

/-- `reporter.getUsers(client, type, action, date, callback)`: derive the
keys, rebuild `from`/`to` from the first and last key, then scan every
key's bitmap bit by bit.  When `keys` is undefined (bad granularity) the
function crashes on `keys[0]` with a `TypeError`, rejecting the promise
before any store access. -/
def getUsers (client : RClient) (type : String) (action : Option String)
    (date : Date) : Except Err UsersList :=
  match keysFor type action date with
  | none => .error .typeError
  | some keys =>
    match keys with
    | [] => .error .typeError
    | k0 :: _ =>
      let fromDate := derivedDate k0
      let toDate := derivedDate (keys.getLastD k0)
      match mapE (scanKey client) keys with
      | .error e => .error e
      | .ok idss => .ok ⟨fromDate, toDate, idss.flatten⟩

/-! ### Algebra of the BigInt bitwise OR

JavaScript's BigInt `|` is `Int.lor` (infinite two's-complement).  The
commutativity, associativity, idempotence and neutrality lemmas below drive
the Aggregator claims. -/

lemma ldiff_lor_right (a b c : Nat) :
    Nat.ldiff c (a ||| b) = Nat.ldiff (Nat.ldiff c b) a := by
  apply Nat.eq_of_testBit_eq
  intro i
  simp only [Nat.testBit_ldiff, Nat.testBit_lor]
  cases c.testBit i <;> cases a.testBit i <;> cases b.testBit i <;> rfl

lemma ldiff_ldiff_comm (a b c : Nat) :
    Nat.ldiff (Nat.ldiff b a) c = Nat.ldiff (Nat.ldiff b c) a := by
  apply Nat.eq_of_testBit_eq
  intro i
  simp only [Nat.testBit_ldiff]
  cases a.testBit i <;> cases b.testBit i <;> cases c.testBit i <;> rfl

lemma land_ldiff_left (a b c : Nat) :
    Nat.ldiff b a &&& c = Nat.ldiff (b &&& c) a := by
  apply Nat.eq_of_testBit_eq
  intro i
  simp only [Nat.testBit_ldiff, Nat.testBit_land]
  cases a.testBit i <;> cases b.testBit i <;> cases c.testBit i <;> rfl

lemma ldiff_ldiff_lor (a b c : Nat) :
    Nat.ldiff (Nat.ldiff a b) c = Nat.ldiff a (b ||| c) := by
  apply Nat.eq_of_testBit_eq
  intro i
  simp only [Nat.testBit_ldiff, Nat.testBit_lor]
  cases a.testBit i <;> cases b.testBit i <;> cases c.testBit i <;> rfl

lemma land_ldiff_swap (a b c : Nat) :
    Nat.ldiff a b &&& c = a &&& Nat.ldiff c b := by
  apply Nat.eq_of_testBit_eq
  intro i
  simp only [Nat.testBit_ldiff, Nat.testBit_land]
  cases a.testBit i <;> cases b.testBit i <;> cases c.testBit i <;> rfl

lemma ldiff_land_left (a b c : Nat) :
    Nat.ldiff (a &&& b) c = a &&& Nat.ldiff b c := by
  apply Nat.eq_of_testBit_eq
  intro i
  simp only [Nat.testBit_ldiff, Nat.testBit_land]
  cases a.testBit i <;> cases b.testBit i <;> cases c.testBit i <;> rfl

lemma ldiff_zero (a : Nat) : Nat.ldiff a 0 = a := by
  apply Nat.eq_of_testBit_eq
  intro i
  simp [Nat.testBit_ldiff]

lemma jsOr_comm (x y : Int) : Int.lor x y = Int.lor y x := by
  cases x with
  | ofNat m =>
    cases y with
    | ofNat n => show Int.ofNat (m ||| n) = Int.ofNat (n ||| m); rw [Nat.lor_comm]
    | negSucc n => rfl
  | negSucc m =>
    cases y with
    | ofNat n => rfl
    | negSucc n => show Int.negSucc (m &&& n) = Int.negSucc (n &&& m); rw [Nat.land_comm]

lemma jsOr_assoc (x y z : Int) : Int.lor (Int.lor x y) z = Int.lor x (Int.lor y z) := by
  cases x with
  | ofNat a =>
    cases y with
    | ofNat b =>
      cases z with
      | ofNat c => show Int.ofNat (a ||| b ||| c) = Int.ofNat (a ||| (b ||| c)); rw [Nat.lor_assoc]
      | negSucc c =>
        show Int.negSucc (Nat.ldiff c (a ||| b)) = Int.negSucc (Nat.ldiff (Nat.ldiff c b) a)
        rw [ldiff_lor_right]
    | negSucc b =>
      cases z with
      | ofNat c =>
        show Int.negSucc (Nat.ldiff (Nat.ldiff b a) c) = Int.negSucc (Nat.ldiff (Nat.ldiff b c) a)
        rw [ldiff_ldiff_comm]
      | negSucc c =>
        show Int.negSucc (Nat.ldiff b a &&& c) = Int.negSucc (Nat.ldiff (b &&& c) a)
        rw [land_ldiff_left]
  | negSucc a =>
    cases y with
    | ofNat b =>
      cases z with
      | ofNat c =>
        show Int.negSucc (Nat.ldiff (Nat.ldiff a b) c) = Int.negSucc (Nat.ldiff a (b ||| c))
        rw [ldiff_ldiff_lor]
      | negSucc c =>
        show Int.negSucc (Nat.ldiff a b &&& c) = Int.negSucc (a &&& Nat.ldiff c b)
        rw [land_ldiff_swap]
    | negSucc b =>
      cases z with
      | ofNat c =>
        show Int.negSucc (Nat.ldiff (a &&& b) c) = Int.negSucc (a &&& Nat.ldiff b c)
        rw [ldiff_land_left]
      | negSucc c =>
        show Int.negSucc (a &&& b &&& c) = Int.negSucc (a &&& (b &&& c))
        rw [Nat.land_assoc]

lemma nat_lor_self (m : Nat) : m ||| m = m := by
  apply Nat.eq_of_testBit_eq
  intro i
  simp [Nat.testBit_lor]

lemma nat_land_self (m : Nat) : m &&& m = m := by
  apply Nat.eq_of_testBit_eq
  intro i
  simp [Nat.testBit_land]

lemma nat_lor_zero (m : Nat) : m ||| 0 = m := by
  apply Nat.eq_of_testBit_eq
  intro i
  simp [Nat.testBit_lor]

lemma jsOr_self (x : Int) : Int.lor x x = x := by
  cases x with
  | ofNat m => show Int.ofNat (m ||| m) = Int.ofNat m; rw [nat_lor_self]
  | negSucc m => show Int.negSucc (m &&& m) = Int.negSucc m; rw [nat_land_self]

lemma jsOr_zero (x : Int) : Int.lor x 0 = x := by
  cases x with
  | ofNat m => show Int.ofNat (m ||| 0) = Int.ofNat m; rw [nat_lor_zero]
  | negSucc m => show Int.negSucc (Nat.ldiff m 0) = Int.negSucc m; rw [ldiff_zero]

lemma zero_jsOr (x : Int) : Int.lor 0 x = x := by
  rw [jsOr_comm, jsOr_zero]

/-! ### Facts about the aggregation fold -/

lemma orFold_shift (l : List (Option Buf)) (a : Int) :
    l.foldl (fun memo buffer => Int.lor (dailyBigint buffer) memo) a
      = Int.lor (l.foldl (fun memo buffer => Int.lor (dailyBigint buffer) memo) 0) a := by
  induction l generalizing a with
  | nil => simp [zero_jsOr]
  | cons x t ih =>
    simp only [List.foldl_cons]
    rw [ih (Int.lor (dailyBigint x) a), ih (Int.lor (dailyBigint x) 0), jsOr_zero,
      jsOr_assoc]

lemma orFold_perm {l₁ l₂ : List (Option Buf)} (h : l₁.Perm l₂) (a : Int) :
    l₁.foldl (fun memo buffer => Int.lor (dailyBigint buffer) memo) a
      = l₂.foldl (fun memo buffer => Int.lor (dailyBigint buffer) memo) a := by
  induction h generalizing a with
  | nil => rfl
  | cons x _ ih => simp only [List.foldl_cons]; exact ih _
  | swap x y l =>
    simp only [List.foldl_cons]
    have hacc : Int.lor (dailyBigint x) (Int.lor (dailyBigint y) a)
        = Int.lor (dailyBigint y) (Int.lor (dailyBigint x) a) := by
      rw [← jsOr_assoc, jsOr_comm (dailyBigint x) (dailyBigint y), jsOr_assoc]
    rw [hacc]
  | trans _ _ ih₁ ih₂ => rw [ih₁, ih₂]

/-! ### Facts about the big-endian byte value -/

lemma beUnsigned_from (b : Buf) (a : Nat) :
    b.foldl (fun a x => 256 * a + x) a = a * 256 ^ b.length + beUnsigned b := by
  induction b generalizing a with
  | nil => simp [beUnsigned]
  | cons x t ih =>
    simp only [List.foldl_cons, List.length_cons, beUnsigned]
    rw [ih (256 * a + x), ih (256 * 0 + x)]
    ring

lemma beUnsigned_cons (x : Nat) (t : Buf) :
    beUnsigned (x :: t) = x * 256 ^ t.length + beUnsigned t := by
  simp only [beUnsigned, List.foldl_cons]
  have := beUnsigned_from t x
  simpa [beUnsigned] using this

lemma beUnsigned_pad (k : Nat) (b : Buf) :
    beUnsigned (List.replicate k 0 ++ b) = beUnsigned b := by
  induction k with
  | zero => rfl
  | succ k ih =>
    simp only [List.replicate_succ, List.cons_append, beUnsigned_cons]
    simpa using ih

lemma beUnsigned_lt (b : Buf) (hb : Bytes b) : beUnsigned b < 256 ^ b.length := by
  induction b with
  | nil => simp [beUnsigned]
  | cons x t ih =>
    have hx : x < 256 := hb x (List.mem_cons_self x t)
    have ht : Bytes t := fun y hy => hb y (List.mem_cons_of_mem x hy)
    have h1 := ih ht
    rw [beUnsigned_cons, List.length_cons, pow_succ]
    calc x * 256 ^ t.length + beUnsigned t
        < x * 256 ^ t.length + 256 ^ t.length := by omega
      _ = (x + 1) * 256 ^ t.length := by ring
      _ ≤ 256 * 256 ^ t.length := by
          have : x + 1 ≤ 256 := by omega
          exact Nat.mul_le_mul_right _ this
      _ = 256 ^ t.length * 256 := by ring

/-! ### Facts about `cardinality` -/

lemma natBinAux_zero (fuel : Nat) : natBinAux fuel 0 = [] := by
  cases fuel <;> simp [natBinAux]

lemma count_natBinAux (fuel n : Nat) (h : n ≤ fuel) :
    (natBinAux fuel n).count '1' = (Nat.digits 2 n).count 1 := by
  induction fuel generalizing n with
  | zero =>
    have : n = 0 := by omega
    subst this
    simp [natBinAux]
  | succ fuel ih =>
    by_cases hn : n = 0
    · subst hn; simp [natBinAux]
    · have hpos : 0 < n := Nat.pos_of_ne_zero hn
      rw [natBinAux, if_neg hn, Nat.digits_def' (by norm_num : (1 : Nat) < 2) hpos]
      rw [List.count_append, List.count_cons, ih (n / 2) (by omega)]
      rcases Nat.mod_two_eq_zero_or_one n with h2 | h2 <;> simp [h2]

lemma count_natBinChars (n : Nat) :
    (natBinChars n).count '1' = (Nat.digits 2 n).count 1 := by
  unfold natBinChars
  by_cases hn : n = 0
  · subst hn; simp
  · rw [if_neg hn]
    exact count_natBinAux n n le_rfl

lemma cardinality_eq_count_digits (x : Int) :
    cardinality x = (Nat.digits 2 x.natAbs).count 1 := by
  unfold cardinality binChars
  by_cases hx : x < 0
  · rw [if_pos hx, List.count_cons, count_natBinChars]
    simp
  · rw [if_neg hx, count_natBinChars]

/-! ### Facts about the sequential fan-out -/

lemma mapE_ok_of_fun {α β : Type} (g : α → β) (l : List α) :
    mapE (fun a => Except.ok (g a)) l = .ok (l.map g) := by
  induction l with
  | nil => rfl
  | cons a t ih => simp [mapE, ih]

lemma mapE_cases {α β : Type} (f : α → Except Err β) (l : List α) :
    (∃ rs, mapE f l = .ok rs) ∨
      (∃ e, mapE f l = .error e ∧ ∃ a ∈ l, f a = .error e) := by
  induction l with
  | nil => exact .inl ⟨[], rfl⟩
  | cons a t ih =>
    cases hfa : f a with
    | error e => exact .inr ⟨e, by simp [mapE, hfa], a, List.mem_cons_self a t, hfa⟩
    | ok b =>
      rcases ih with ⟨rs, hrs⟩ | ⟨e, he, a2, ha2, hfa2⟩
      · exact .inl ⟨b :: rs, by simp [mapE, hfa, hrs]⟩
      · exact .inr ⟨e, by simp [mapE, hfa, he], a2, List.mem_cons_of_mem a ha2, hfa2⟩

lemma mapE_ok_forall {α β : Type} {f : α → Except Err β} {l : List α} {rs : List β}
    (h : mapE f l = .ok rs) : ∀ a ∈ l, ∃ b, f a = .ok b := by
  induction l generalizing rs with
  | nil => intro a ha; cases ha
  | cons a t ih =>
    intro a2 ha2
    cases hfa : f a with
    | error e => rw [mapE, hfa] at h; cases h
    | ok b =>
      rw [mapE, hfa] at h
      cases hrest : mapE f t with
      | error e => rw [hrest] at h; cases h
      | ok bs =>
        rcases List.mem_cons.mp ha2 with rfl | hmem
        · exact ⟨b, hfa⟩
        · exact ih hrest a2 hmem

lemma foldE_ok_of_total {α β : Type} (f : β → α → Except Err β)
    (hf : ∀ b a, ∃ c, f b a = .ok c) (b : β) (l : List α) :
    ∃ c, foldE f b l = .ok c := by
  induction l generalizing b with
  | nil => exact ⟨b, rfl⟩
  | cons a t ih =>
    rcases hf b a with ⟨c, hc⟩
    rcases ih c with ⟨c2, hc2⟩
    exact ⟨c2, by simp [foldE, hc, hc2]⟩

lemma foldE_error_src {α β : Type} {f : β → α → Except Err β} {b : β} {l : List α} {e : Err}
    (h : foldE f b l = .error e) : ∃ x ∈ l, ∃ acc, f acc x = .error e := by
  induction l generalizing b with
  | nil => cases h
  | cons a t ih =>
    cases hfa : f b a with
    | error e2 =>
      rw [foldE, hfa] at h
      cases h
      exact ⟨a, List.mem_cons_self a t, b, hfa⟩
    | ok c =>
      rw [foldE, hfa] at h
      rcases ih h with ⟨x, hx, acc, hacc⟩
      exact ⟨x, List.mem_cons_of_mem a hx, acc, hacc⟩

lemma foldE_ok_forall {α β : Type} {f : β → α → Except Err β} {b : β} {l : List α} {c : β}
    (h : foldE f b l = .ok c) : ∀ x ∈ l, ∃ acc y, f acc x = .ok y := by
  induction l generalizing b with
  | nil => intro x hx; cases hx
  | cons a t ih =>
    intro x hx
    cases hfa : f b a with
    | error e => rw [foldE, hfa] at h; cases h
    | ok c2 =>
      rw [foldE, hfa] at h
      rcases List.mem_cons.mp hx with rfl | hmem
      · exact ⟨b, c2, hfa⟩
      · exact ih h x hmem

/-! ### Signed read of an 8-byte buffer -/

lemma readBigInt64BE_eight (b : Buf) (hb : Bytes b) (h8 : b.length = 8) :
    (b.headD 0 < 128 → readBigInt64BE b = (beUnsigned b : Int)) ∧
    (128 ≤ b.headD 0 → readBigInt64BE b = (beUnsigned b : Int) - 2 ^ 64) := by
  have htake : b.take 8 = b := List.take_of_length_le (by omega)
  cases b with
  | nil => cases h8
  | cons x t =>
    have hlen : t.length = 7 := by simpa using h8
    have hx : x < 256 := hb x (List.mem_cons_self x t)
    have ht : Bytes t := fun y hy => hb y (List.mem_cons_of_mem x hy)
    have htlt : beUnsigned t < 256 ^ 7 := by
      have := beUnsigned_lt t ht
      rwa [hlen] at this
    have hcons : beUnsigned (x :: t) = x * 256 ^ 7 + beUnsigned t := by
      rw [beUnsigned_cons, hlen]
    constructor
    · intro hsmall
      simp only [List.headD_cons] at hsmall
      have hlt : beUnsigned (x :: t) < 2 ^ 63 := by
        rw [hcons]
        have : x * 256 ^ 7 + beUnsigned t < (x + 1) * 256 ^ 7 := by omega
        calc x * 256 ^ 7 + beUnsigned t < (x + 1) * 256 ^ 7 := this
          _ ≤ 128 * 256 ^ 7 := Nat.mul_le_mul_right _ (by omega)
          _ = 2 ^ 63 := by norm_num
      unfold readBigInt64BE
      rw [htake, if_pos (by exact_mod_cast hlt)]
    · intro hbig
      simp only [List.headD_cons] at hbig
      have hge : 2 ^ 63 ≤ beUnsigned (x :: t) := by
        rw [hcons]
        calc (2 : Nat) ^ 63 = 128 * 256 ^ 7 := by norm_num
          _ ≤ x * 256 ^ 7 := Nat.mul_le_mul_right _ hbig
          _ ≤ x * 256 ^ 7 + beUnsigned t := Nat.le_add_right _ _
      unfold readBigInt64BE
      rw [htake, if_neg (by exact_mod_cast Nat.not_lt.mpr hge)]

/-- `C1` (corrected part): the value `activeUsers` aggregates for a padded
short buffer — leading pad bytes are zero, so the signed read agrees with
the unsigned value. -/
lemma to64Bits_short (b : Buf) (hb : Bytes b) (hlen : b.length < 8) :
    (to64Bits b).length = 8 ∧ to64Bits b = List.replicate (8 - b.length) 0 ++ b ∧
      readBigInt64BE (to64Bits b) = (beUnsigned b : Int) := by
  have heq : to64Bits b = List.replicate (8 - b.length) 0 ++ b := by
    unfold to64Bits
    rw [if_pos hlen]
  have hlen8 : (to64Bits b).length = 8 := by
    rw [heq]
    simp
    omega
  refine ⟨hlen8, heq, ?_⟩
  have hbytes : Bytes (to64Bits b) := by
    rw [heq]
    intro y hy
    rcases List.mem_append.mp hy with hrep | hmem
    · rw [List.eq_of_mem_replicate hrep]; omega
    · exact hb y hmem
  have hhead : (to64Bits b).headD 0 < 128 := by
    rw [heq]
    cases hrep : List.replicate (8 - b.length) 0 with
    | nil =>
      exfalso
      have : 8 - b.length = 0 := by simpa using congrArg List.length hrep
      omega
    | cons z zs =>
      have hz : z = 0 := by
        have : z ∈ List.replicate (8 - b.length) 0 := by rw [hrep]; exact List.mem_cons_self z zs
        exact List.eq_of_mem_replicate this
      simp [hz]
  have := (readBigInt64BE_eight (to64Bits b) hbytes hlen8).1 hhead
  rw [this, heq, beUnsigned_pad]

/-- Evaluating `activeUsers` against an error-free store: it reports the
cardinality of the aggregate OR. -/
lemma activeUsers_ofState (state : String → Option Buf) (keys : List String) :
    activeUsers (ofState state) (.inr keys) = .ok (cardinality (aggregate state keys)) := by
  unfold activeUsers
  have : (ofState state).get = fun k => Except.ok (state k) := rfl
  rw [this]
  show (match mapE (fun k => Except.ok (state k)) keys with
    | .error e => Except.error e
    | .ok results =>
      Except.ok (cardinality (results.foldl (fun memo buffer => Int.lor (dailyBigint buffer) memo) 0)))
    = _
  rw [mapE_ok_of_fun state keys]
  rfl

lemma activeUsers_ofState_single (state : String → Option Buf) (key : String) :
    activeUsers (ofState state) (.inl key) = .ok (cardinality (aggregate state [key])) := by
  unfold activeUsers
  have : (ofState state).get = fun k => Except.ok (state k) := rfl
  rw [this]
  show (match mapE (fun k => Except.ok (state k)) [key] with
    | .error e => Except.error e
    | .ok results =>
      Except.ok (cardinality (results.foldl (fun memo buffer => Int.lor (dailyBigint buffer) memo) 0)))
    = _
  rw [mapE_ok_of_fun state [key]]
  rfl

/-! ## Claim C1 -/

/-- C1, counterexample: an 8-byte buffer with the top bit set is *not* read
as the non-negative big-endian unsigned value — `readBigInt64BE` is a
signed read, so `0x80 00…00` comes out as `-2^63`, not `2^63`. -/
theorem C1_counterexample :
    readBigInt64BE (to64Bits [128, 0, 0, 0, 0, 0, 0, 0]) < 0 ∧
      readBigInt64BE (to64Bits [128, 0, 0, 0, 0, 0, 0, 0])
        ≠ (beUnsigned [128, 0, 0, 0, 0, 0, 0, 0] : Int) := by
  constructor <;> decide

/-- C1, amended: buffers shorter than 8 bytes are left-padded with zero
bytes to exactly 8 and then read big-endian, which for them coincides with
the non-negative unsigned value; an 8-byte buffer is read as a *signed*
(two's-complement) big-endian 64-bit integer, which equals the unsigned
value exactly when the most significant bit is clear and equals
`unsigned - 2^64 < 0` when it is set. -/
theorem C1_normalization (b : Buf) (hb : Bytes b) :
    (b.length < 8 →
      (to64Bits b).length = 8 ∧ to64Bits b = List.replicate (8 - b.length) 0 ++ b ∧
        readBigInt64BE (to64Bits b) = (beUnsigned b : Int) ∧
        0 ≤ readBigInt64BE (to64Bits b)) ∧
    (b.length = 8 → b.headD 0 < 128 →
      readBigInt64BE (to64Bits b) = (beUnsigned b : Int) ∧ 0 ≤ readBigInt64BE (to64Bits b)) ∧
    (b.length = 8 → 128 ≤ b.headD 0 →
      readBigInt64BE (to64Bits b) = (beUnsigned b : Int) - 2 ^ 64 ∧
        readBigInt64BE (to64Bits b) < 0) := by
  have hsame : b.length = 8 → to64Bits b = b := by
    intro h8
    unfold to64Bits
    rw [if_neg (by omega)]
  refine ⟨?_, ?_, ?_⟩
  · intro hlen
    rcases to64Bits_short b hb hlen with ⟨h1, h2, h3⟩
    exact ⟨h1, h2, h3, by rw [h3]; exact Int.ofNat_nonneg _⟩
  · intro h8 hhead
    rw [hsame h8]
    have := (readBigInt64BE_eight b hb h8).1 hhead
    exact ⟨this, by rw [this]; exact Int.ofNat_nonneg _⟩
  · intro h8 hhead
    rw [hsame h8]
    have hv := (readBigInt64BE_eight b hb h8).2 hhead
    have hlt : beUnsigned b < 2 ^ 64 := by
      have := beUnsigned_lt b hb
      rw [h8] at this
      calc beUnsigned b < 256 ^ 8 := this
        _ = 2 ^ 64 := by norm_num
    exact ⟨hv, by rw [hv]; omega⟩

/-- C1 witness. -/
theorem C1_witness :
    Bytes [7, 255] ∧
      readBigInt64BE (to64Bits [7, 255]) = (beUnsigned [7, 255] : Int) := by
  refine ⟨by decide, ?_⟩
  exact ((C1_normalization [7, 255] (by decide)).1 (by decide)).2.2.1

/-! ## Claim C2 -/

/-- Left-zero-padding of a big-endian bit string. -/
def leftPad (k : Nat) (bits : List Bool) : List Bool :=
  List.replicate k false ++ bits

/-- The unsigned value of a big-endian bit string. -/
def bitsVal (bits : List Bool) : Nat :=
  bits.foldl (fun a b => 2 * a + if b then 1 else 0) 0

lemma bitsVal_leftPad (k : Nat) (bits : List Bool) :
    bitsVal (leftPad k bits) = bitsVal bits := by
  induction k with
  | zero => rfl
  | succ k ih =>
    unfold leftPad bitsVal at ih ⊢
    rw [List.replicate_succ, List.cons_append, List.foldl_cons]
    simpa using ih

/-- C2: `cardinality` counts the 1-bits of the minimal binary
representation (`cardinality 0 = 0`), and is invariant under left-zero
padding of the bit string. -/
theorem C2_cardinality :
    (∀ n : Nat, cardinality (n : Int) = (Nat.digits 2 n).count 1) ∧
    cardinality 0 = 0 ∧
    (∀ bits k, cardinality (bitsVal (leftPad k bits) : Int) = cardinality (bitsVal bits : Int)) := by
  refine ⟨?_, by decide, ?_⟩
  · intro n
    rw [cardinality_eq_count_digits]
    simp
  · intro bits k
    rw [bitsVal_leftPad]

/-! ## Claim C3 -/

/-- C3: the aggregate OR is order-independent under permutation of the key
sequence and idempotent under key-list duplication, and it is exactly the
bit-integer whose cardinality an error-free `activeUsers` reports. -/
theorem C3_aggregate_comm_idem :
    (∀ (state : String → Option Buf) (keys₁ keys₂ : List String),
        keys₁.Perm keys₂ → aggregate state keys₁ = aggregate state keys₂) ∧
    (∀ (state : String → Option Buf) (keys : List String),
        aggregate state (keys ++ keys) = aggregate state keys) ∧
    (∀ (state : String → Option Buf) (keys : List String),
        activeUsers (ofState state) (.inr keys) = .ok (cardinality (aggregate state keys))) := by
  refine ⟨?_, ?_, activeUsers_ofState⟩
  · intro state keys₁ keys₂ hperm
    unfold aggregate
    exact orFold_perm (hperm.map state) 0
  · intro state keys
    unfold aggregate
    rw [List.map_append, List.foldl_append, orFold_shift, jsOr_self]

/-- C3 witness. -/
theorem C3_witness :
    aggregate (fun k => if k = "a" then some [1] else some [2]) ["a", "b"]
      = aggregate (fun k => if k = "a" then some [1] else some [2]) ["b", "a"] :=
  C3_aggregate_comm_idem.1 _ ["a", "b"] ["b", "a"] (List.Perm.swap "b" "a" [])

/-! ## Claim C4 -/

/-- C4, counterexample: the empty string is a string action, but
`action || 'active'` treats it as falsy, so `keyFor("", d)` is
`"active-…"`, not `"" + "-" + isoDate d`. -/
theorem C4_counterexample :
    keyFor (some "") ⟨2024, 1, 1⟩ ≠ "" ++ "-" ++ isoDate ⟨2024, 1, 1⟩ := by
  decide

/-- C4, amended: for every *non-empty* action string the key is
`action + "-" + isoDate d`; an omitted/null action — and likewise an empty
one, since `""` is falsy — uses the default sentinel `"active"`. -/
theorem C4_keyFor (a : String) (d : Date) :
    (a ≠ "" → keyFor (some a) d = a ++ "-" ++ isoDate d) ∧
    keyFor none d = "active" ++ "-" ++ isoDate d ∧
    keyFor (some "") d = "active" ++ "-" ++ isoDate d := by
  refine ⟨?_, rfl, ?_⟩
  · intro ha
    show (if a = "" then "active" else a) ++ "-" ++ isoDate d = a ++ "-" ++ isoDate d
    rw [if_neg ha]
  · show (if ("" : String) = "" then "active" else "") ++ "-" ++ isoDate d
      = "active" ++ "-" ++ isoDate d
    rw [if_pos rfl]

/-- C4 witness. -/
theorem C4_witness :
    keyFor (some "login") ⟨2024, 1, 1⟩ = "login" ++ "-" ++ isoDate ⟨2024, 1, 1⟩ :=
  (C4_keyFor "login" ⟨2024, 1, 1⟩).1 (by decide)

/-! ## Claim C6 -/

/-- C6, counterexample: with bitset `0b10100000` under
`"active-2024-01-01"`, `getUsers('D', …)` does *not* return
`from = to = "01-01-2024"`: the code rebuilds `from`/`to` from key parts
1..3, which are `YYYY`, `MM`, `DD`. -/
theorem C6_counterexample :
    getUsers (ofState (fun k => if k = "active-2024-01-01" then some [160] else none))
        "D" none ⟨2024, 1, 1⟩
      ≠ .ok ⟨"01-01-2024", "01-01-2024", [⟨0, "2024-01-01"⟩, ⟨2, "2024-01-01"⟩]⟩ := by
  decide

/-- C6, amended: the scenario returns `from = to = "2024-01-01"` (the
`YYYY-MM-DD` order the key-part rebuild actually produces), with the set
bit positions 0 and 2 in ascending order, each tagged with the day. -/
theorem C6_getUsers_scenario :
    getUsers (ofState (fun k => if k = "active-2024-01-01" then some [160] else none))
        "D" none ⟨2024, 1, 1⟩
      = .ok ⟨"2024-01-01", "2024-01-01", [⟨0, "2024-01-01"⟩, ⟨2, "2024-01-01"⟩]⟩ := by
  decide

/-! ## Claim C9 -/

/-- C9: a granularity other than `D`/`W`/`M` makes `getUsers` fail
immediately (the `TypeError` from the undefined key list rejects the
promise), identically for every store — so no store fetch contributes and
no partial result is produced. -/
theorem C9_invalid_granularity (t : String) (a : Option String) (d : Date)
    (hD : t ≠ "D") (hW : t ≠ "W") (hM : t ≠ "M") :
    ∀ client : RClient, getUsers client t a d = .error .typeError := by
  intro client
  unfold getUsers keysFor
  rw [if_neg hD, if_neg hW, if_neg hM]

/-- C9 witness. -/
theorem C9_witness :
    getUsers (ofState (fun _ => none)) "X" none ⟨2024, 1, 1⟩ = .error .typeError :=
  C9_invalid_granularity "X" none ⟨2024, 1, 1⟩ (by decide) (by decide) (by decide)
    (ofState (fun _ => none))

/-! ## Claim C10 -/

/-- C10: an 8-byte bitset with bit 0 (user id 0) set is read as a negative
signed 64-bit integer (`unsigned - 2^64`), and the count `daily` reports is
the number of 1-bits of that integer's *absolute value*, not of its 64-bit
two's-complement pattern. -/
theorem C10_signed_cardinality (b : Buf) (hb : Bytes b) (h8 : b.length = 8)
    (hmsb : 128 ≤ b.headD 0) (state : String → Option Buf) (a : Option String)
    (d : Date) (hst : state (keyFor a d) = some b) :
    readBigInt64BE (to64Bits b) < 0 ∧
    readBigInt64BE (to64Bits b) = (beUnsigned b : Int) - 2 ^ 64 ∧
    daily (ofState state) a d
      = .ok ((Nat.digits 2 (readBigInt64BE (to64Bits b)).natAbs).count 1) := by
  have hsame : to64Bits b = b := by
    unfold to64Bits
    rw [if_neg (by omega)]
  have hv := (readBigInt64BE_eight b hb h8).2 hmsb
  have hlt : beUnsigned b < 2 ^ 64 := by
    have := beUnsigned_lt b hb
    rw [h8] at this
    calc beUnsigned b < 256 ^ 8 := this
      _ = 2 ^ 64 := by norm_num
  have hneg : readBigInt64BE (to64Bits b) < 0 := by
    rw [hsame, hv]
    omega
  refine ⟨hneg, by rw [hsame]; exact hv, ?_⟩
  unfold daily
  rw [activeUsers_ofState_single]
  have hagg : aggregate state [keyFor a d] = readBigInt64BE (to64Bits b) := by
    unfold aggregate
    simp only [List.map_cons, List.map_nil, List.foldl_cons, List.foldl_nil, hst]
    unfold dailyBigint
    exact jsOr_zero _
  rw [hagg, cardinality_eq_count_digits]

/-- C10 witness: a daily bitset of eight `0xFF` bytes (all 64 users active)
is read as `-1` and reported as count 1, not 64. -/
theorem C10_witness :
    readBigInt64BE (to64Bits (List.replicate 8 255)) < 0 ∧
      daily (ofState (fun k => if k = "active-2024-01-01" then some (List.replicate 8 255) else none))
          none ⟨2024, 1, 1⟩ = .ok 1 ∧
      (1 : Nat) ≠ 64 := by
  have h := C10_signed_cardinality (List.replicate 8 255) (by decide) (by decide) (by decide)
    (fun k => if k = "active-2024-01-01" then some (List.replicate 8 255) else none)
    none ⟨2024, 1, 1⟩ (by decide)
  refine ⟨h.1, ?_, by decide⟩
  have habs : (readBigInt64BE (to64Bits (List.replicate 8 255))).natAbs = 1 := by decide
  have hcount : (Nat.digits 2 1).count 1 = 1 := by
    rw [Nat.digits_def' (by norm_num : (1 : Nat) < 2) (by norm_num)]
    simp
  rw [h.2.2, habs, hcount]

/-! ### Per-key scan lemmas for `getUsers` -/

lemma mapE_ok_of_all {α β : Type} {f : α → Except Err β} {l : List α}
    (h : ∀ a ∈ l, ∃ b, f a = .ok b) : ∃ rs, mapE f l = .ok rs := by
  induction l with
  | nil => exact ⟨[], rfl⟩
  | cons a t ih =>
    rcases h a (List.mem_cons_self a t) with ⟨b, hb⟩
    rcases ih (fun x hx => h x (List.mem_cons_of_mem a hx)) with ⟨rs, hrs⟩
    exact ⟨b :: rs, by simp [mapE, hb, hrs]⟩

lemma mapE_const_ok {α β : Type} {f : α → Except Err β} {l : List α} {c : β}
    (h : ∀ a ∈ l, f a = .ok c) : mapE f l = .ok (List.replicate l.length c) := by
  induction l with
  | nil => rfl
  | cons a t ih =>
    have ha := h a (List.mem_cons_self a t)
    have ht := ih (fun x hx => h x (List.mem_cons_of_mem a hx))
    simp [mapE, ha, ht, List.replicate_succ]

lemma flatten_replicate_nil {α : Type} (n : Nat) :
    (List.replicate n ([] : List α)).flatten = [] := by
  induction n with
  | zero => rfl
  | succ n ih => simp [List.replicate_succ, ih]

lemma scanKey_ofState_absent (state : String → Option Buf) (k : String)
    (hk : state k = none) : scanKey (ofState state) k = .ok [] := by
  unfold scanKey ofState
  simp [hk]

lemma scanKey_ofState_ok (state : String → Option Buf) (k : String) :
    ∃ ids, scanKey (ofState state) k = .ok ids := by
  unfold scanKey ofState
  simp only
  by_cases h : ((state k).getD []).length * 8 ≠ 0
  · rw [if_pos h]
    exact foldE_ok_of_total _ (fun b a => ⟨_, rfl⟩) [] _
  · rw [if_neg h]
    exact ⟨[], rfl⟩

/-- Which fetches `getUsers` issues for a key, and when one fails. -/
def FetchFails (client : RClient) (k : String) : Prop :=
  (∃ e, client.strlen k = .error e) ∨
    (∃ len, client.strlen k = .ok len ∧ len * 8 ≠ 0 ∧
      ∃ i, i < len * 8 ∧ ∃ e, client.getbit k i = .error e)

/-- `e` is the error of one of key `k`'s fetches. -/
def IsFetchErr (client : RClient) (k : String) (e : Err) : Prop :=
  client.strlen k = .error e ∨ ∃ i, client.getbit k i = .error e

lemma scanKey_eq_strlen_error {client : RClient} {k : String} {e : Err}
    (hs : client.strlen k = .error e) : scanKey client k = .error e := by
  unfold scanKey
  rw [hs]

lemma scanKey_eq_foldE {client : RClient} {k : String} {len : Nat}
    (hs : client.strlen k = .ok len) (hne : len * 8 ≠ 0) :
    scanKey client k = foldE (scanStep client k) [] (List.range (len * 8)) := by
  unfold scanKey
  rw [hs]
  show (if len * 8 ≠ 0 then _ else Except.ok []) = _
  rw [if_pos hne]

lemma scanKey_eq_nil {client : RClient} {k : String} {len : Nat}
    (hs : client.strlen k = .ok len) (hne : ¬len * 8 ≠ 0) :
    scanKey client k = .ok [] := by
  unfold scanKey
  rw [hs]
  show (if len * 8 ≠ 0 then _ else Except.ok []) = _
  rw [if_neg hne]

lemma scanKey_fails {client : RClient} {k : String} (h : FetchFails client k) :
    ∃ e, scanKey client k = .error e := by
  rcases h with ⟨e, he⟩ | ⟨len, hlen, hne, i, hi, e, hge⟩
  · exact ⟨e, scanKey_eq_strlen_error he⟩
  · rw [scanKey_eq_foldE hlen hne]
    cases hfold : foldE (scanStep client k) [] (List.range (len * 8)) with
    | error e2 => exact ⟨e2, rfl⟩
    | ok c =>
      exfalso
      rcases foldE_ok_forall hfold i (List.mem_range.mpr hi) with ⟨acc, y, hstep⟩
      unfold scanStep at hstep
      rw [hge] at hstep
      cases hstep

lemma scanKey_error_src {client : RClient} {k : String} {e : Err}
    (h : scanKey client k = .error e) : IsFetchErr client k e := by
  cases hs : client.strlen k with
  | error e2 =>
    rw [scanKey_eq_strlen_error hs] at h
    cases h
    exact .inl hs
  | ok len =>
    by_cases hne : len * 8 ≠ 0
    · rw [scanKey_eq_foldE hs hne] at h
      rcases foldE_error_src h with ⟨i, _, acc, hstep⟩
      unfold scanStep at hstep
      cases hg : client.getbit k i with
      | error e2 =>
        rw [hg] at hstep
        cases hstep
        exact .inr ⟨i, hg⟩
      | ok user =>
        rw [hg] at hstep
        cases hstep
    · rw [scanKey_eq_nil hs hne] at h
      cases h

/-! ## Claim C7 -/

lemma orFold_all_none (state : String → Option Buf) (l : List String) (a : Int)
    (h : ∀ k ∈ l, state k = none) :
    (l.map state).foldl (fun memo buffer => Int.lor (dailyBigint buffer) memo) a = a := by
  induction l generalizing a with
  | nil => rfl
  | cons k t ih =>
    simp only [List.map_cons, List.foldl_cons, h k (List.mem_cons_self k t)]
    have hstep : Int.lor (dailyBigint none) a = a := by
      unfold dailyBigint
      exact zero_jsOr a
    rw [hstep]
    exact ih a (fun x hx => h x (List.mem_cons_of_mem k hx))

/-- C7: when every queried key is absent, the three count operations report
0 and `getUsers` reports an empty `ids` list with `from`/`to` still rebuilt
from the first and last key; and against an error-free store no
aggregation or enumeration ever errors (missing or empty bitsets
included). -/
theorem C7_absent_keys :
    (∀ (state : String → Option Buf) (a : Option String) (d : Date),
        state (keyFor a d) = none → daily (ofState state) a d = .ok 0) ∧
    (∀ (state : String → Option Buf) (a : Option String) (d : Date),
        (∀ k ∈ weekKeys d a, state k = none) → weekly (ofState state) a d = .ok 0) ∧
    (∀ (state : String → Option Buf) (a : Option String) (d : Date),
        (∀ k ∈ monthKeys d a, state k = none) → monthly (ofState state) a d = .ok 0) ∧
    (∀ (state : String → Option Buf) (t : String) (a : Option String) (d : Date)
        (k0 : String) (rest : List String),
        keysFor t a d = some (k0 :: rest) →
        (∀ k ∈ k0 :: rest, state k = none) →
        getUsers (ofState state) t a d
          = .ok ⟨derivedDate k0, derivedDate ((k0 :: rest).getLastD k0), []⟩) ∧
    (∀ (state : String → Option Buf) (keyOrKeys : String ⊕ List String),
        ∃ n, activeUsers (ofState state) keyOrKeys = .ok n) ∧
    (∀ (state : String → Option Buf) (t : String) (a : Option String) (d : Date)
        (k0 : String) (rest : List String),
        keysFor t a d = some (k0 :: rest) →
        ∃ r, getUsers (ofState state) t a d = .ok r) := by
  have hcard0 : cardinality 0 = 0 := by decide
  refine ⟨?_, ?_, ?_, ?_, ?_, ?_⟩
  · intro state a d h
    unfold daily
    rw [activeUsers_ofState_single]
    unfold aggregate
    rw [orFold_all_none state [keyFor a d] 0 (by simpa using h), hcard0]
  · intro state a d h
    unfold weekly
    rw [activeUsers_ofState]
    unfold aggregate
    rw [orFold_all_none state _ 0 h, hcard0]
  · intro state a d h
    unfold monthly
    rw [activeUsers_ofState]
    unfold aggregate
    rw [orFold_all_none state _ 0 h, hcard0]
  · intro state t a d k0 rest hkeys habsent
    have hscan : ∀ k ∈ k0 :: rest, scanKey (ofState state) k = .ok [] :=
      fun k hk => scanKey_ofState_absent state k (habsent k hk)
    unfold getUsers
    rw [hkeys]
    simp only [mapE_const_ok hscan, flatten_replicate_nil]
  · intro state keyOrKeys
    cases keyOrKeys with
    | inl k => exact ⟨_, activeUsers_ofState_single state k⟩
    | inr keys => exact ⟨_, activeUsers_ofState state keys⟩
  · intro state t a d k0 rest hkeys
    have hscan : ∀ k ∈ k0 :: rest, ∃ ids, scanKey (ofState state) k = .ok ids :=
      fun k _ => scanKey_ofState_ok state k
    rcases mapE_ok_of_all hscan with ⟨rs, hrs⟩
    refine ⟨⟨derivedDate k0, derivedDate ((k0 :: rest).getLastD k0), rs.flatten⟩, ?_⟩
    unfold getUsers
    rw [hkeys]
    simp only [hrs]

/-- C7 witness. -/
theorem C7_witness :
    daily (ofState (fun _ => none)) none ⟨2024, 1, 1⟩ = .ok 0 :=
  C7_absent_keys.1 (fun _ => none) none ⟨2024, 1, 1⟩ rfl

/-! ## Claim C8 -/

/-- C8: a failing fetch aborts the whole operation — `activeUsers` (behind
`daily`/`weekly`/`monthly`) surfaces the error of a failing `get` as-is and
never returns a count, and `getUsers` surfaces the error of a failing
`strlen`/`getbit` as-is and never returns a users list. -/
theorem C8_fetch_failure :
    (∀ (client : RClient) (keyOrKeys : String ⊕ List String),
        (∃ k ∈ wrapKeys keyOrKeys, ∃ e, client.get k = .error e) →
        (∃ e, activeUsers client keyOrKeys = .error e ∧
            ∃ k ∈ wrapKeys keyOrKeys, client.get k = .error e) ∧
          ∀ n, activeUsers client keyOrKeys ≠ .ok n) ∧
    (∀ (client : RClient) (t : String) (a : Option String) (d : Date)
        (k0 : String) (rest : List String),
        keysFor t a d = some (k0 :: rest) →
        (∃ k ∈ k0 :: rest, FetchFails client k) →
        (∃ e, getUsers client t a d = .error e ∧
            ∃ k ∈ k0 :: rest, IsFetchErr client k e) ∧
          ∀ r, getUsers client t a d ≠ .ok r) := by
  constructor
  · intro client keyOrKeys hfail
    rcases mapE_cases client.get (wrapKeys keyOrKeys) with ⟨rs, hrs⟩ | ⟨e, hme, k, hk, hke⟩
    · exfalso
      rcases hfail with ⟨k, hk, e, he⟩
      rcases mapE_ok_forall hrs k hk with ⟨b, hb⟩
      rw [he] at hb
      cases hb
    · have herr : activeUsers client keyOrKeys = .error e := by
        unfold activeUsers
        rw [hme]
      exact ⟨⟨e, herr, k, hk, hke⟩, fun n h => by rw [herr] at h; cases h⟩
  · intro client t a d k0 rest hkeys hfail
    rcases mapE_cases (scanKey client) (k0 :: rest) with ⟨rs, hrs⟩ | ⟨e, hme, k, hk, hke⟩
    · exfalso
      rcases hfail with ⟨k, hk, hFF⟩
      rcases scanKey_fails hFF with ⟨e, hse⟩
      rcases mapE_ok_forall hrs k hk with ⟨b, hb⟩
      rw [hse] at hb
      cases hb
    · have herr : getUsers client t a d = .error e := by
        unfold getUsers
        rw [hkeys]
        simp only [hme]
      exact ⟨⟨e, herr, k, hk, scanKey_error_src hke⟩, fun r h => by rw [herr] at h; cases h⟩

/-- C8 witness. -/
theorem C8_witness :
    (∃ e, activeUsers
        ⟨fun k => if k = "bad" then .error (.store "boom") else .ok none,
          fun _ => .ok 0, fun _ _ => .ok 0⟩ (.inr ["good", "bad"]) = .error e ∧
        ∃ k ∈ ["good", "bad"],
          (⟨fun k => if k = "bad" then .error (.store "boom") else .ok none,
            fun _ => .ok 0, fun _ _ => .ok 0⟩ : RClient).get k = .error e) ∧
      ∀ n, activeUsers
        ⟨fun k => if k = "bad" then .error (.store "boom") else .ok none,
          fun _ => .ok 0, fun _ _ => .ok 0⟩ (.inr ["good", "bad"]) ≠ .ok n :=
  C8_fetch_failure.1
    ⟨fun k => if k = "bad" then .error (.store "boom") else .ok none,
      fun _ => .ok 0, fun _ _ => .ok 0⟩ (.inr ["good", "bad"])
    ⟨"bad", by decide, .store "boom", by decide⟩

/-! ### Calendar arithmetic for the Key Deriver claims -/

lemma isLeap_iff (y : Nat) :
    isLeap y = true ↔ (y % 4 = 0 ∧ (y % 100 ≠ 0 ∨ y % 400 = 0)) := by
  simp [isLeap]

lemma daysInMonth_pos (y m : Nat) (h1 : 1 ≤ m) (h2 : m ≤ 12) :
    1 ≤ daysInMonth y m := by
  interval_cases m <;> simp [daysInMonth] <;> split <;> omega

lemma daysInMonth_le (y m : Nat) : daysInMonth y m ≤ 31 := by
  unfold daysInMonth
  split <;> first | omega | (split <;> omega)

lemma valid_nextDay {x : Date} (hv : Valid x) : Valid (nextDay x) := by
  obtain ⟨y, m, d⟩ := x
  unfold Valid at hv ⊢
  unfold nextDay
  dsimp only at hv ⊢
  obtain ⟨hy, hm1, hm12, hd1, hdN⟩ := hv
  split_ifs with h1 h2
  · dsimp only
    exact ⟨hy, hm1, hm12, by omega, by omega⟩
  · dsimp only
    refine ⟨hy, by omega, by omega, le_refl 1, ?_⟩
    exact daysInMonth_pos y (m + 1) (by omega) (by omega)
  · dsimp only
    refine ⟨by omega, by omega, by omega, le_refl 1, ?_⟩
    simp [daysInMonth]

lemma daysBeforeMonth_succ (y m : Nat) (h1 : 1 ≤ m) (h2 : m < 12) :
    daysBeforeMonth y (m + 1) = daysBeforeMonth y m + daysInMonth y m := by
  interval_cases m <;>
    cases hL : isLeap y <;>
      simp [daysBeforeMonth, daysInMonth, hL]

lemma leapAdj (z : Nat) :
    (z + 1) / 4 + (z + 1) / 400 + z / 100
      = z / 4 + z / 400 + (z + 1) / 100 + (if isLeap (z + 1) then 1 else 0) := by
  by_cases h : isLeap (z + 1) = true
  · rw [if_pos h]
    rw [isLeap_iff] at h
    rcases h with ⟨h4, h100 | h400⟩ <;> omega
  · rw [if_neg h]
    rw [isLeap_iff] at h
    push_neg at h
    by_cases h4 : (z + 1) % 4 = 0
    · rcases h h4 with ⟨h100, h400⟩
      omega
    · omega

lemma daysBeforeMonth_one (y : Nat) : daysBeforeMonth y 1 = 0 := by
  simp [daysBeforeMonth]

lemma daysBeforeMonth_twelve (y : Nat) :
    daysBeforeMonth y 12 = 334 + (if isLeap y then 1 else 0) := by
  simp [daysBeforeMonth]

lemma dayNumber_pos {x : Date} (hv : Valid x) : 1 ≤ dayNumber x := by
  obtain ⟨y, m, d⟩ := x
  unfold Valid at hv
  dsimp only at hv
  obtain ⟨hy, hm1, hm12, hd1, hdN⟩ := hv
  unfold dayNumber
  dsimp only
  omega

lemma dayNumber_nextDay {x : Date} (hv : Valid x) :
    dayNumber (nextDay x) = dayNumber x + 1 := by
  obtain ⟨y, m, d⟩ := x
  unfold Valid at hv
  dsimp only at hv
  obtain ⟨hy, hm1, hm12, hd1, hdN⟩ := hv
  unfold nextDay
  dsimp only
  split_ifs with h1 h2
  · unfold dayNumber
    dsimp only
    omega
  · have hge1 : 1 ≤ daysInMonth y m := by omega
    unfold dayNumber
    dsimp only
    rw [daysBeforeMonth_succ y m hm1 h2]
    omega
  · have hm : m = 12 := by omega
    subst hm
    have hd31 : d = 31 := by
      have : daysInMonth y 12 = 31 := rfl
      omega
    subst hd31
    unfold dayNumber
    dsimp only
    rw [daysBeforeMonth_one, daysBeforeMonth_twelve]
    have hyc : y + 1 - 1 = y := by omega
    rw [hyc]
    have hyy : y - 1 + 1 = y := by omega
    have hAdj := leapAdj (y - 1)
    rw [hyy] at hAdj
    omega

lemma nextDay_prevDay {x : Date} (hv : Valid x) : nextDay (prevDay x) = x := by
  obtain ⟨y, m, d⟩ := x
  unfold Valid at hv
  dsimp only at hv
  obtain ⟨hy, hm1, hm12, hd1, hdN⟩ := hv
  unfold prevDay
  dsimp only
  split_ifs with h1 h2
  · unfold nextDay
    dsimp only
    rw [if_pos (show d - 1 < daysInMonth y m by omega)]
    congr 1
    omega
  · unfold nextDay
    dsimp only
    have hge1 : 1 ≤ daysInMonth y (m - 1) := daysInMonth_pos y (m - 1) (by omega) (by omega)
    rw [if_neg (by omega), if_pos (by omega)]
    congr 1 <;> omega
  · unfold nextDay
    dsimp only
    have h31 : daysInMonth (y - 1) 12 = 31 := rfl
    rw [if_neg (by omega), if_neg (by omega)]
    congr 1 <;> omega

lemma prevDay_nextDay {x : Date} (hv : Valid x) : prevDay (nextDay x) = x := by
  obtain ⟨y, m, d⟩ := x
  unfold Valid at hv
  dsimp only at hv
  obtain ⟨hy, hm1, hm12, hd1, hdN⟩ := hv
  unfold nextDay
  dsimp only
  split_ifs with h1 h2
  · unfold prevDay
    dsimp only
    rw [if_pos (by omega)]
    congr 1 <;> omega
  · unfold prevDay
    dsimp only
    rw [if_neg (by omega), if_pos (by omega)]
    simp only [Nat.add_sub_cancel]
    congr 1 <;> omega
  · unfold prevDay
    dsimp only
    have hm : m = 12 := by omega
    subst hm
    have h31 : daysInMonth y 12 = 31 := rfl
    have hd31 : d = 31 := by omega
    rw [if_neg (by omega), if_neg (by omega)]
    congr 1 <;> omega

lemma valid_prevDay {x : Date} (hv : Valid x) (h2 : 2 ≤ dayNumber x) :
    Valid (prevDay x) := by
  obtain ⟨y, m, d⟩ := x
  unfold Valid at hv
  dsimp only at hv
  obtain ⟨hy, hm1, hm12, hd1, hdN⟩ := hv
  unfold prevDay
  dsimp only
  split_ifs with h1 hm2
  · unfold Valid
    dsimp only
    omega
  · unfold Valid
    dsimp only
    have hge1 : 1 ≤ daysInMonth y (m - 1) := daysInMonth_pos y (m - 1) (by omega) (by omega)
    omega
  · have hmm : m = 1 := by omega
    have hdd : d = 1 := by omega
    have hy2 : 2 ≤ y := by
      by_contra hc
      have hy1 : y = 1 := by omega
      subst hy1 hmm hdd
      have hone : dayNumber ⟨1, 1, 1⟩ = 1 := by
        unfold dayNumber
        dsimp only
        rw [daysBeforeMonth_one]
      omega
    unfold Valid
    dsimp only
    have h31 : daysInMonth (y - 1) 12 = 31 := rfl
    omega

lemma dayNumber_prevDay {x : Date} (hv : Valid x) (h2 : 2 ≤ dayNumber x) :
    dayNumber (prevDay x) = dayNumber x - 1 := by
  have hvp := valid_prevDay hv h2
  have h := dayNumber_nextDay hvp
  rw [nextDay_prevDay hv] at h
  omega

lemma addDays_zero (x : Date) : addDays x 0 = x := rfl

lemma addDays_succ (x : Date) (n : Nat) : addDays x (n + 1) = nextDay (addDays x n) :=
  Function.iterate_succ_apply' nextDay n x

lemma subDays_succ (x : Date) (n : Nat) : subDays x (n + 1) = prevDay (subDays x n) :=
  Function.iterate_succ_apply' prevDay n x

lemma valid_addDays {x : Date} (hv : Valid x) (n : Nat) : Valid (addDays x n) := by
  induction n with
  | zero => exact hv
  | succ n ih => rw [addDays_succ]; exact valid_nextDay ih

lemma dayNumber_addDays {x : Date} (hv : Valid x) (n : Nat) :
    dayNumber (addDays x n) = dayNumber x + n := by
  induction n with
  | zero => rfl
  | succ n ih =>
    rw [addDays_succ, dayNumber_nextDay (valid_addDays hv n), ih]
    omega

lemma subDays_facts {x : Date} (hv : Valid x) (n : Nat) (h : n < dayNumber x) :
    Valid (subDays x n) ∧ dayNumber (subDays x n) = dayNumber x - n := by
  induction n with
  | zero => exact ⟨hv, rfl⟩
  | succ n ih =>
    rcases ih (by omega) with ⟨hvs, hds⟩
    have h2 : 2 ≤ dayNumber (subDays x n) := by omega
    rw [subDays_succ]
    exact ⟨valid_prevDay hvs h2, by rw [dayNumber_prevDay hvs h2, hds]; omega⟩

lemma addDays_subDays_cancel {x : Date} (hv : Valid x) (n : Nat) (h : n < dayNumber x) :
    addDays (subDays x n) n = x := by
  induction n generalizing x with
  | zero => rfl
  | succ n ih =>
    have hd2 : 2 ≤ dayNumber x := by omega
    have hvp : Valid (prevDay x) := valid_prevDay hv hd2
    have hdp : dayNumber (prevDay x) = dayNumber x - 1 := dayNumber_prevDay hv hd2
    have hsub : subDays x (n + 1) = subDays (prevDay x) n := by
      unfold subDays
      exact Function.iterate_succ_apply prevDay n x
    rw [hsub, addDays_succ, ih hvp (by omega)]
    exact nextDay_prevDay hv

lemma subDays_addDays_cancel {x : Date} (hv : Valid x) (n : Nat) :
    subDays (addDays x n) n = x := by
  induction n generalizing x with
  | zero => rfl
  | succ n ih =>
    have hadd : addDays x (n + 1) = addDays (nextDay x) n := by
      unfold addDays
      exact Function.iterate_succ_apply nextDay n x
    rw [hadd, subDays_succ, ih (valid_nextDay hv)]
    exact prevDay_nextDay hv

lemma dow_lt (x : Date) : dow x < 7 :=
  Nat.mod_lt _ (by norm_num)

lemma startOfWeek_facts {x : Date} (hv : Valid x) (h7 : 7 ≤ dayNumber x) :
    Valid (startOfWeek x) ∧ dayNumber (startOfWeek x) = dayNumber x - dow x ∧
      dow (startOfWeek x) = 0 := by
  have hlt : dow x < dayNumber x := lt_of_lt_of_le (dow_lt x) h7
  rcases subDays_facts hv (dow x) hlt with ⟨hvs, hds⟩
  refine ⟨hvs, hds, ?_⟩
  show dayNumber (subDays x (dow x)) % 7 = 0
  rw [hds]
  have hmod : dow x = dayNumber x % 7 := rfl
  rw [hmod]
  omega

lemma startOfWeek_stability {s0 : Date} (hv : Valid s0) (hdow : dow s0 = 0)
    {k : Nat} (hk : k ≤ 6) : startOfWeek (addDays s0 k) = s0 := by
  have hdk : dayNumber (addDays s0 k) = dayNumber s0 + k := dayNumber_addDays hv k
  have hdowk : dow (addDays s0 k) = k := by
    show dayNumber (addDays s0 k) % 7 = k
    rw [hdk]
    have hmod : dayNumber s0 % 7 = 0 := hdow
    omega
  unfold startOfWeek
  rw [hdowk]
  exact subDays_addDays_cancel hv k

lemma timesMut_succ (f : Date → Nat → Date) (k n : Nat) (st : Date) :
    timesMut f (k + 1) n st = f st n :: timesMut f k (n + 1) (f st n) := rfl

lemma timesMut_week (s0 : Date) (hv0 : Valid s0) (hdow0 : dow s0 = 0) :
    ∀ (k n : Nat) (st : Date), n + k ≤ 7 → startOfWeek st = s0 →
      timesMut (fun st n => addDays (startOfWeek st) n) k n st
        = (List.range' n k).map (fun j => addDays s0 j) := by
  intro k
  induction k with
  | zero => intro n st _ _; rfl
  | succ k ih =>
    intro n st hnk hst
    rw [timesMut_succ]
    rw [hst, List.range'_succ, List.map_cons]
    congr 1
    exact ih (n + 1) (addDays s0 n) (by omega)
      (startOfWeek_stability hv0 hdow0 (by omega))

lemma weekKeys_eq {d : Date} (a : Option String) (hv : Valid d) (h7 : 7 ≤ dayNumber d) :
    weekKeys d a = (List.range 7).map (fun n => keyFor a (addDays (startOfWeek d) n)) := by
  rcases startOfWeek_facts hv h7 with ⟨hv0, _, hdow0⟩
  unfold weekKeys
  rw [timesMut_week (startOfWeek d) hv0 hdow0 7 0 d (by omega) rfl,
    List.range_eq_range', List.map_map]
  rfl

lemma addDays_in_month (y m : Nat) (hv1 : Valid ⟨y, m, 1⟩) :
    ∀ n, n + 1 ≤ daysInMonth y m → addDays ⟨y, m, 1⟩ n = ⟨y, m, n + 1⟩ := by
  intro n
  induction n with
  | zero => intro _; rfl
  | succ n ih =>
    intro h
    rw [addDays_succ, ih (by omega)]
    unfold nextDay
    dsimp only
    rw [if_pos (by omega)]

lemma timesMut_month (y m : Nat) (hv1 : Valid ⟨y, m, 1⟩) :
    ∀ (k n : Nat) (st : Date), n + k ≤ daysInMonth y m → st.y = y → st.m = m →
      timesMut (fun st n => addDays (startOfMonth st) n) k n st
        = (List.range' n k).map (fun j => (⟨y, m, j + 1⟩ : Date)) := by
  intro k
  induction k with
  | zero => intro n st _ _ _; rfl
  | succ k ih =>
    intro n st hnk hy hm
    rw [timesMut_succ]
    have hsom : startOfMonth st = ⟨y, m, 1⟩ := by
      unfold startOfMonth
      rw [hy, hm]
    rw [hsom, addDays_in_month y m hv1 n (by omega), List.range'_succ, List.map_cons]
    congr 1
    exact ih (n + 1) ⟨y, m, n + 1⟩ (by omega) rfl rfl

lemma monthKeys_eq {d : Date} (a : Option String) (hv : Valid d) :
    monthKeys d a
      = (List.range (daysInMonth d.y d.m)).map (fun n => keyFor a ⟨d.y, d.m, n + 1⟩) := by
  have hv1 : Valid (⟨d.y, d.m, 1⟩ : Date) := by
    obtain ⟨hy, hm1, hm12, hd1, hdN⟩ := hv
    unfold Valid
    dsimp only
    omega
  unfold monthKeys
  rw [timesMut_month d.y d.m hv1 (daysInMonth d.y d.m) 0 d (by omega) rfl rfl,
    List.range_eq_range', List.map_map]
  rfl

lemma prevDay_y_le (x : Date) : (prevDay x).y ≤ x.y := by
  unfold prevDay
  split_ifs <;> dsimp only <;> omega

lemma subDays_y_le (x : Date) (n : Nat) : (subDays x n).y ≤ x.y := by
  induction n with
  | zero => exact le_refl _
  | succ n ih =>
    rw [subDays_succ]
    exact le_trans (prevDay_y_le _) ih

lemma nextDay_y_le (x : Date) : (nextDay x).y ≤ x.y + 1 := by
  unfold nextDay
  split_ifs <;> dsimp only <;> omega

lemma nextDay_y_eq {x : Date} (h : (nextDay x).y = x.y + 1) :
    nextDay x = ⟨x.y + 1, 1, 1⟩ := by
  unfold nextDay at h ⊢
  split_ifs at h ⊢ <;> dsimp only at h <;> first | omega | rfl

lemma week_year_bound {s0 : Date} (hv : Valid s0) (hy : s0.y ≤ 9998) :
    ∀ j, j ≤ 6 → (addDays s0 j).y ≤ 9998 ∨
      ((addDays s0 j).y = 9999 ∧ (addDays s0 j).m = 1 ∧ (addDays s0 j).d ≤ j + 1) := by
  intro j
  induction j with
  | zero => intro _; exact .inl hy
  | succ j ih =>
    intro hj
    rcases ih (by omega) with hle | ⟨h9, h1m, hdle⟩
    · rw [addDays_succ]
      by_cases hcase : (nextDay (addDays s0 j)).y = (addDays s0 j).y + 1
      · by_cases h97 : (addDays s0 j).y ≤ 9997
        · left
          omega
        · right
          have h98 : (addDays s0 j).y = 9998 := by omega
          have heq := nextDay_y_eq (x := addDays s0 j) (by omega)
          rw [heq]
          dsimp only
          exact ⟨by omega, rfl, by omega⟩
      · left
        have := nextDay_y_le (addDays s0 j)
        omega
    · right
      rw [addDays_succ]
      have hdim : daysInMonth (addDays s0 j).y (addDays s0 j).m = 31 := by
        rw [h1m]
        simp [daysInMonth]
      unfold nextDay
      rw [if_pos (by omega)]
      dsimp only
      exact ⟨h9, h1m, by omega⟩

lemma digitChar_injOn : ∀ u v : Fin 10, Nat.digitChar u.val = Nat.digitChar v.val → u = v := by
  decide

lemma digit_inj {a b : Nat} (h : digit a = digit b) : a % 10 = b % 10 := by
  unfold digit at h
  have h10a : a % 10 < 10 := Nat.mod_lt _ (by norm_num)
  have h10b : b % 10 < 10 := Nat.mod_lt _ (by norm_num)
  have := digitChar_injOn ⟨a % 10, h10a⟩ ⟨b % 10, h10b⟩ h
  exact congrArg Fin.val this

lemma isoDate_inj {x1 x2 : Date} (hv1 : Valid x1) (hv2 : Valid x2)
    (hy1 : x1.y ≤ 9999) (hy2 : x2.y ≤ 9999) (h : isoDate x1 = isoDate x2) :
    x1 = x2 := by
  obtain ⟨y1, m1, d1⟩ := x1
  obtain ⟨y2, m2, d2⟩ := x2
  unfold Valid at hv1 hv2
  dsimp only at hv1 hv2 hy1 hy2
  obtain ⟨hya, hm1a, hm12a, hd1a, hdNa⟩ := hv1
  obtain ⟨hyb, hm1b, hm12b, hd1b, hdNb⟩ := hv2
  have hda : d1 ≤ 31 := le_trans hdNa (daysInMonth_le _ _)
  have hdb : d2 ≤ 31 := le_trans hdNb (daysInMonth_le _ _)
  unfold isoDate at h
  dsimp only at h
  have hl := congrArg String.data h
  simp only [List.cons.injEq, and_true, true_and] at hl
  obtain ⟨h1, h2, h3, h4, h5, h6, h7, h8⟩ := hl
  have e1 := digit_inj h1
  have e2 := digit_inj h2
  have e3 := digit_inj h3
  have e4 := digit_inj h4
  have e5 := digit_inj h5
  have e6 := digit_inj h6
  have e7 := digit_inj h7
  have e8 := digit_inj h8
  have hy : y1 = y2 := by omega
  have hm : m1 = m2 := by omega
  have hd : d1 = d2 := by omega
  rw [hy, hm, hd]

lemma keyFor_inj_date {a : Option String} {x1 x2 : Date} (hv1 : Valid x1) (hv2 : Valid x2)
    (hy1 : x1.y ≤ 9999) (hy2 : x2.y ≤ 9999) (h : keyFor a x1 = keyFor a x2) :
    x1 = x2 := by
  apply isoDate_inj hv1 hv2 hy1 hy2
  unfold keyFor at h
  have hd := congrArg String.data h
  simp only [String.data_append, List.append_assoc] at hd
  have hd2 := List.append_cancel_left hd
  have hd3 := List.append_cancel_left hd2
  exact congrArg String.mk hd3

/-! ## Claim C5 -/

/-- C5: for a valid date (inside the calendar capability's range),
`weekKeys` is exactly the keys of the 7 consecutive days starting at the
start of `d`'s week — in chronological order, one per calendar day, no
gaps, no duplicates, with `d` inside the window — and `monthKeys` is
exactly the keys of days 1..daysInMonth of `d`'s month in chronological
order with no duplicates.  (The shared mutable `moment` object in
`_.times` re-normalizes every iteration, so the mutation is benign.) -/
theorem C5_week_month_keys (d : Date) (a : Option String) (hv : Valid d)
    (h7 : 7 ≤ dayNumber d) (hy : d.y ≤ 9998) :
    weekKeys d a = (List.range 7).map (fun n => keyFor a (addDays (startOfWeek d) n)) ∧
    (weekKeys d a).length = 7 ∧
    (weekKeys d a).Nodup ∧
    (∃ j, j < 7 ∧ addDays (startOfWeek d) j = d) ∧
    monthKeys d a
      = (List.range (daysInMonth d.y d.m)).map (fun n => keyFor a ⟨d.y, d.m, n + 1⟩) ∧
    (monthKeys d a).length = daysInMonth d.y d.m ∧
    (monthKeys d a).Nodup := by
  rcases startOfWeek_facts hv h7 with ⟨hv0, hd0, hdow0⟩
  have hwk := weekKeys_eq a hv h7
  have hmk := monthKeys_eq a hv
  have hy0 : (startOfWeek d).y ≤ 9998 := le_trans (subDays_y_le d (dow d)) hy
  have hyb : ∀ j, j ≤ 6 → (addDays (startOfWeek d) j).y ≤ 9999 := by
    intro j hj
    rcases week_year_bound hv0 hy0 j hj with h | ⟨h, _, _⟩ <;> omega
  refine ⟨hwk, ?_, ?_, ?_, hmk, ?_, ?_⟩
  · rw [hwk]
    simp
  · rw [hwk]
    apply List.Nodup.map_on ?_ (List.nodup_range 7)
    intro i hi j hj hfe
    have hi7 : i < 7 := List.mem_range.mp hi
    have hj7 : j < 7 := List.mem_range.mp hj
    have hvi := valid_addDays hv0 i
    have hvj := valid_addDays hv0 j
    have hdate := keyFor_inj_date hvi hvj (hyb i (by omega)) (hyb j (by omega)) hfe
    have hdni := dayNumber_addDays hv0 i
    have hdnj := dayNumber_addDays hv0 j
    rw [hdate] at hdni
    omega
  · exact ⟨dow d, dow_lt d, addDays_subDays_cancel hv (dow d) (lt_of_lt_of_le (dow_lt d) h7)⟩
  · rw [hmk]
    simp
  · rw [hmk]
    apply List.Nodup.map_on ?_ (List.nodup_range _)
    intro i hi j hj hfe
    obtain ⟨hyv, hm1, hm12, hd1, hdN⟩ := hv
    have hiN : i < daysInMonth d.y d.m := List.mem_range.mp hi
    have hjN : j < daysInMonth d.y d.m := List.mem_range.mp hj
    have hvi : Valid (⟨d.y, d.m, i + 1⟩ : Date) := by
      unfold Valid
      dsimp only
      omega
    have hvj : Valid (⟨d.y, d.m, j + 1⟩ : Date) := by
      unfold Valid
      dsimp only
      omega
    have hdate := keyFor_inj_date hvi hvj (by dsimp only; omega) (by dsimp only; omega) hfe
    have hdd := congrArg Date.d hdate
    dsimp only at hdd
    omega

/-- C5 witness. -/
theorem C5_witness :
    Valid ⟨2024, 1, 15⟩ ∧ 7 ≤ dayNumber ⟨2024, 1, 15⟩ ∧ (2024 : Nat) ≤ 9998 ∧
      (weekKeys ⟨2024, 1, 15⟩ none).length = 7 ∧
      (monthKeys ⟨2024, 1, 15⟩ none).length = 31 := by
  have h := C5_week_month_keys ⟨2024, 1, 15⟩ none (by decide) (by decide) (by decide)
  have h31 : daysInMonth 2024 1 = 31 := by decide
  refine ⟨by decide, by decide, by decide, h.2.1, ?_⟩
  rw [h.2.2.2.2.2.1]
  decide

end Hau
